import Mathlib

/-!
Verification of the AnyLetters word-candidate engine (src/main.py, src/filter.py).

Shallow embedding conventions:
  * Python strings are Lean `String`s (sequences of Unicode scalar values); where
    positional reasoning is needed we work on `String.data : List Char`.
  * Python `set` values are `Finset String`; `sorted(<set>)` is `Finset.sort wordLe`
    with `wordLe` the code-point lexicographic order that Python's `<` implements
    (Lean's builtin `String.le` is extensionally the same order but is defined by
    well-founded recursion, so we use a structurally recursive copy).
  * File reads/writes are modelled at the content level: a text file is a
    `List Char`, written and parsed exactly as the code does.
  * External capabilities that the code calls but that live outside the repository
    (Python's Unicode `str.lower`/`str.isalpha`, `unicodedata.normalize`, the
    optional `better_profanity` detector, the JSON-backed filter configurations,
    and the `re` regular-expression engine) are parameters of the embedding;
    theorems quantify over them or pin them by hypothesis at the call sites used.
-/

/-! ### Python string primitives -/

/-- Code-point lexicographic comparison of character lists; the order Python's
string `<`/`<=` and `sorted` use. -/
def charListLe : List Char → List Char → Bool
  | [], _ => true
  | _ :: _, [] => false
  | a :: as, b :: bs => if a = b then charListLe as bs else decide (a < b)

/-- Lexicographic order on words, as used by Python's `sorted`. -/
def wordLe (a b : String) : Prop := charListLe a.data b.data = true

instance : DecidableRel wordLe := fun a b => by
  unfold wordLe; infer_instance

instance : IsTotal String wordLe := by
  constructor
  have key : ∀ as bs : List Char,
      charListLe as bs = true ∨ charListLe bs as = true := by
    intro as
    induction as with
    | nil => intro bs; left; rfl
    | cons a as ih =>
      intro bs
      cases bs with
      | nil => right; rfl
      | cons b bs =>
        by_cases hab : a = b
        · subst hab
          simpa only [charListLe, if_pos rfl] using ih bs
        · rcases lt_or_gt_of_ne hab with h | h
          · left; simp [charListLe, hab, h]
          · right; simp [charListLe, Ne.symm hab, h]
  intro a b
  exact key a.data b.data

instance : IsTrans String wordLe := by
  constructor
  have key : ∀ as bs cs : List Char, charListLe as bs = true →
      charListLe bs cs = true → charListLe as cs = true := by
    intro as
    induction as with
    | nil => intro bs cs _ _; rfl
    | cons a as ih =>
      intro bs cs h1 h2
      cases bs with
      | nil => simp [charListLe] at h1
      | cons b bs =>
        cases cs with
        | nil => simp [charListLe] at h2
        | cons c cs =>
          by_cases hab : a = b <;> by_cases hbc : b = c
          · subst hab; subst hbc
            simp only [charListLe, if_pos rfl] at h1 h2 ⊢
            exact ih _ _ h1 h2
          · subst hab
            simp only [charListLe, if_pos rfl, if_neg hbc, decide_eq_true_eq] at h2 ⊢
            exact h2
          · subst hbc
            simp only [charListLe, if_neg hab, decide_eq_true_eq] at h1 ⊢
            exact h1
          · simp only [charListLe, if_neg hab, decide_eq_true_eq] at h1
            simp only [charListLe, if_neg hbc, decide_eq_true_eq] at h2
            have hac : a < c := lt_trans h1 h2
            simp [charListLe, ne_of_lt hac, hac]
  intro a b c h1 h2
  exact key a.data b.data c.data h1 h2

instance : IsAntisymm String wordLe := by
  constructor
  have key : ∀ as bs : List Char, charListLe as bs = true →
      charListLe bs as = true → as = bs := by
    intro as
    induction as with
    | nil =>
      intro bs h1 h2
      cases bs with
      | nil => rfl
      | cons b bs => simp [charListLe] at h2
    | cons a as ih =>
      intro bs h1 h2
      cases bs with
      | nil => simp [charListLe] at h1
      | cons b bs =>
        by_cases hab : a = b
        · subst hab
          simp only [charListLe, if_pos rfl] at h1 h2
          rw [ih bs h1 h2]
        · simp only [charListLe, if_neg hab, decide_eq_true_eq] at h1
          simp only [charListLe, if_neg (Ne.symm hab), decide_eq_true_eq] at h2
          exact absurd h2 (lt_asymm h1)
  intro a b h1 h2
  exact congrArg String.mk (key a.data b.data h1 h2)

/-- Characters stripped by Python's `str.strip()` and splitting by `str.split()`:
the characters for which `str.isspace` holds. -/
def isPyWs (c : Char) : Bool :=
  let n := c.toNat
  (9 ≤ n && n ≤ 13) || n = 32 || (28 ≤ n && n ≤ 31) || n = 0x85 || n = 0xa0 ||
    n = 0x1680 || (0x2000 ≤ n && n ≤ 0x200a) || n = 0x2028 || n = 0x2029 ||
    n = 0x202f || n = 0x205f || n = 0x3000

/-- Python `str.strip()` on a character list. -/
def pyStripL (cs : List Char) : List Char :=
  ((cs.dropWhile isPyWs).reverse.dropWhile isPyWs).reverse

/-- Python `str.strip()`. -/
def pyStrip (s : String) : String := ⟨pyStripL s.data⟩

/-- Worker for `pySplit`: splits on whitespace runs, dropping empty pieces.
`acc` holds the (reversed) characters of the token currently being read. -/
def splitWsAux : List Char → List Char → List String
  | [], acc => if acc.isEmpty then [] else [⟨acc.reverse⟩]
  | c :: cs, acc =>
    if isPyWs c then
      if acc.isEmpty then splitWsAux cs [] else (⟨acc.reverse⟩ : String) :: splitWsAux cs []
    else splitWsAux cs (c :: acc)

/-- Python `str.split()` with no separator: split on whitespace runs, no empties. -/
def pySplit (s : String) : List String := splitWsAux s.data []

/-- Python `str.startswith` for a single string argument. -/
def pyStartsWith (s pre : String) : Bool := pre.data.isPrefixOf s.data

/-- Python `str.endswith` for a single string argument. -/
def pyEndsWith (s suf : String) : Bool := suf.data.isSuffixOf s.data

/-- Python slice `s[:-n]` for `n ≥ 1` (also correct for `n = 0` uses below,
where the code never produces them). -/
def strDropRight (s : String) (n : Nat) : String := ⟨s.data.take (s.data.length - n)⟩

/-- Python slice `s[n:]`. -/
def strDropLeft (s : String) (n : Nat) : String := ⟨s.data.drop n⟩

/-- Python `str.isdigit` restricted to the ASCII digits that dictionary headers
use. -/
def pyIsDigit (s : String) : Bool := !s.data.isEmpty && s.data.all Char.isDigit

/-- Worker for `pyDedupKeys`: keep the first occurrence of each string, the
behaviour of Python's `dict.fromkeys`. -/
def dedupFirstAux : List String → List String → List String
  | _, [] => []
  | seen, w :: ws =>
    if w ∈ seen then dedupFirstAux seen ws else w :: dedupFirstAux (w :: seen) ws

/-- Python `list(dict.fromkeys(words))`: order-preserving deduplication. -/
def pyDedupKeys (l : List String) : List String := dedupFirstAux [] l

/-- Python `sorted(dict.fromkeys(words))`. -/
def pySortedDedup (l : List String) : List String :=
  List.insertionSort wordLe (pyDedupKeys l)

/-- Python `sorted(<set>)`: the ascending enumeration of a set's elements.
Defined by lifting `insertionSort` over the underlying multiset (well defined
because sorting any two permuted duplicate-free lists gives the same list). -/
def sortWords (s : Finset String) : List String :=
  Quotient.liftOn s.val (fun l => List.insertionSort wordLe l)
    (fun l1 l2 h =>
      List.eq_of_perm_of_sorted
        (((List.perm_insertionSort wordLe l1).trans h).trans
          (List.perm_insertionSort wordLe l2).symm)
        (List.sorted_insertionSort wordLe l1) (List.sorted_insertionSort wordLe l2))

/-! ### Guess scorer (`score_guess`, src/main.py lines 893-929)

The two input strings are taken as equal-length character lists, the contract
stated in the code's docstring and in spec §4.7. -/

/-- First pass of `score_guess`: mark `'G'` at matching positions and tally the
target letters of the mismatched positions (the `remaining` dict, modelled as a
list counted up to multiplicity). -/
def scorePass1 : List Char → List Char → List Char × List Char
  | g :: gs, t :: ts =>
    let r := scorePass1 gs ts
    if g = t then ('G' :: r.1, r.2) else ('B' :: r.1, t :: r.2)
  | _, _ => ([], [])

/-- Second pass of `score_guess`: upgrade non-`'G'` positions to `'Y'` while the
remaining tally for the guessed letter is positive, decrementing it. -/
def scorePass2 : List Char → List Char → List Char → List Char
  | g :: gs, m :: ms, rem =>
    if m = 'G' then 'G' :: scorePass2 gs ms rem
    else if 0 < rem.count g then 'Y' :: scorePass2 gs ms (rem.erase g)
    else m :: scorePass2 gs ms rem
  | _, _, _ => []

/-- Embeds `score_guess(guess, target)` from src/main.py. -/
def score_guess (guess target : List Char) : List Char :=
  let r := scorePass1 guess target
  scorePass2 guess r.1 r.2

/-! ### Affix rule parser (`parse_aff_rules`, src/main.py lines 283-323) -/

/-- Embeds `AffRules`: suffix and prefix rule tables keyed by flag string; each value is
the ordered list of `(strip, add, condition)` triples, insertion order kept, as
in the Python `dict`-of-`list`s. -/
structure AffRules where
  sfx : String → List (String × String × String)
  pfx : String → List (String × String × String)

/-- A fresh `AffRules()` object: both tables empty. -/
def AffRules.empty : AffRules := ⟨fun _ => [], fun _ => []⟩

/-- Embeds `AffRules.add_rule`: append one rule under the flag of the chosen table. -/
def AffRules.addRule (r : AffRules) (isSfx : Bool) (flag st ad co : String) :
    AffRules :=
  if isSfx then
    { r with sfx := fun g => if g = flag then r.sfx g ++ [(st, ad, co)] else r.sfx g }
  else
    { r with pfx := fun g => if g = flag then r.pfx g ++ [(st, ad, co)] else r.pfx g }

/-- Processing of one line of an `.aff` file inside `parse_aff_rules`'s loop. -/
def parseAffLine (r : AffRules) (line : String) : AffRules :=
  let stripped := pyStrip line
  if stripped = "" then r
  else if pyStartsWith stripped "#" then r
  else
    match pySplit stripped with
    | t :: f :: p2 :: p3 :: rest =>
      if t ≠ "SFX" ∧ t ≠ "PFX" then r
      else if rest ≠ [] ∧ p2 ≠ "Y" ∧ p2 ≠ "N" then
        let st := if p2 = "0" then "" else p2
        let ad := if p3 = "0" then "" else p3
        let co := match rest with | c :: _ => c | [] => "."
        r.addRule (decide (t = "SFX")) f st ad co
      else r
    | _ => r

/-- Embeds `parse_aff_rules` over the lines of an `.aff` file (a missing file is the
empty line list, giving empty tables as in the code). -/
def parse_aff_rules (lines : List String) : AffRules :=
  lines.foldl parseAffLine AffRules.empty

/-! ### Affix expansion engine (src/main.py lines 325-418) -/

/-- The behaviour of Python's `re` engine, abstracted: `search p s` models
`re.search(p, s)` and `rmatch p s` models `re.match(p, s)`, returning
`.ok true`/`.ok false` for match/no-match and `.error ()` when compiling the
pattern raises `re.error`. -/
structure ReOracle where
  search : String → String → Except Unit Bool
  rmatch : String → String → Except Unit Bool

/-- Membership in the character class `[a-zäöüß]` of `letters_re`. -/
def isAllowedLetter (c : Char) : Bool :=
  ('a' ≤ c && c ≤ 'z') || c = 'ä' || c = 'ö' || c = 'ü' || c = 'ß'

/-- Embeds `letters_re.match(w)` for `letters_re = re.compile(r"^[a-zäöüß]+$")`:
one or more allowed letters, where Python's `$` also matches just before a
single newline at the end of the string. -/
def lettersMatch (w : String) : Bool :=
  let cs := w.data
  let core := if cs.getLast? = some '\n' then cs.dropLast else cs
  !core.isEmpty && core.all isAllowedLetter

/-- The guard `blocked_suffix_additions and add and add.lower() in
blocked_suffix_additions` (Python truthiness: a `None` or empty set and an empty
`add` are falsy). -/
def blockedHit (lowerFn : String → String) (blocked : Option (Finset String))
    (ad : String) : Bool :=
  match blocked with
  | none => false
  | some b => !decide (b = ∅) && !decide (ad = "") && decide (lowerFn ad ∈ b)

/-- The stem used by a suffix rule: `base[:-len(strip)]` when `strip` is
non-empty (and known to be a suffix of `base`), else `base` itself. -/
def sfxStem (base st : String) : String :=
  if st ≠ "" then strDropRight base st.data.length else base

/-- The stem used by a prefix rule: `base[len(strip):]` when `strip` is
non-empty (and known to be a prefix of `base`), else `base` itself. -/
def pfxStem (base st : String) : String :=
  if st ≠ "" then strDropLeft base st.data.length else base

/-- Body of the suffix-rule loop of `_generate_affixed_candidates` for one rule:
`some c` when the rule yields candidate `c`, `none` when the rule is skipped. -/
def sfxCandidate (O : ReOracle) (lowerFn : String → String)
    (blocked : Option (Finset String)) (wl : Nat) (base : String)
    (rule : String × String × String) : Option String :=
  let st := rule.1
  let ad := rule.2.1
  let co := rule.2.2
  if blockedHit lowerFn blocked ad then none
  else if st ≠ "" ∧ pyEndsWith base st = false then none
  else
    let stem := sfxStem base st
    let candidate := stem ++ ad
    let condOk : Bool :=
      if co = "" then true
      else
        match O.search (co ++ "$") stem with
        | .ok b => b
        | .error _ => true
    if condOk then
      if candidate.data.length = wl ∧ lettersMatch candidate then some candidate
      else none
    else none

/-- Body of the prefix-rule loop of `_generate_affixed_candidates` for one rule. -/
def pfxCandidate (O : ReOracle) (wl : Nat) (base : String)
    (rule : String × String × String) : Option String :=
  let st := rule.1
  let ad := rule.2.1
  let co := rule.2.2
  if st ≠ "" ∧ pyStartsWith base st = false then none
  else
    let stem := pfxStem base st
    let candidate := ad ++ stem
    let condOk : Bool :=
      if co = "" then true
      else
        match O.rmatch ("^" ++ co) stem with
        | .ok b => b
        | .error _ => true
    if condOk then
      if candidate.data.length = wl ∧ lettersMatch candidate then some candidate
      else none
    else none

/-- Embeds `_generate_affixed_candidates` (src/main.py lines 325-378): for each flag
character, all suffix-rule candidates then all prefix-rule candidates, in rule
order. -/
def _generate_affixed_candidates (O : ReOracle) (lowerFn : String → String)
    (base : String) (flags : String) (rules : AffRules) (wl : Nat)
    (blocked : Option (Finset String)) : List String :=
  flags.data.flatMap fun fl =>
    ((rules.sfx (String.singleton fl)).filterMap
        (sfxCandidate O lowerFn blocked wl base)) ++
      ((rules.pfx (String.singleton fl)).filterMap (pfxCandidate O wl base))

/-- One iteration of the entry loop of `expand_with_affixes`: add the base
itself when it has the target length and matches the letters pattern, and add
every generated affixed candidate. -/
def expandStep (O : ReOracle) (lowerFn : String → String) (rules : AffRules)
    (wl : Nat) (blocked : Option (Finset String)) (acc : Finset String)
    (e : String × String) : Finset String :=
  (if e.1.data.length = wl ∧ lettersMatch e.1 then insert e.1 acc else acc) ∪
    (_generate_affixed_candidates O lowerFn e.1 e.2 rules wl blocked).toFinset

/-- Embeds `expand_with_affixes` (src/main.py lines 380-418): direct bases of the right
shape plus all generated candidates, collected into a set. -/
def expand_with_affixes (O : ReOracle) (lowerFn : String → String)
    (entries : List (String × String)) (rules : AffRules) (wl : Nat)
    (blocked : Option (Finset String)) : Finset String :=
  entries.foldl (expandStep O lowerFn rules wl blocked) ∅

/-! ### Language filter pipeline (src/filter.py) -/

/-- Embeds `FilterConfig` as used by `LanguageFilter.apply`; lists model the tuples of
the dataclass (`blacklist_files` only affects how `blacklist` is loaded and is
folded into it). -/
structure FilterConfig where
  prefixes : List String
  suffixes : List String
  blacklist : List String

/-- Embeds `LanguageFilter._matches_prefix`. -/
def prefHit (c : FilterConfig) (wl : String) : Bool :=
  c.prefixes.any fun p => pyStartsWith wl p

/-- Embeds `LanguageFilter._matches_suffix`. -/
def sufHit (c : FilterConfig) (wl : String) : Bool :=
  c.suffixes.any fun s => pyEndsWith wl s

/-- The per-word checks of `LanguageFilter.apply`: alphabetic, not profane, not
blacklisted, no disallowed prefix or suffix. `lowerFn`, `alphaFn` and `profFn`
model Python's Unicode `str.lower`, `str.isalpha` and the optional profanity
capability. -/
def passesFilter (lowerFn : String → String) (alphaFn : String → Bool)
    (profFn : String → Bool) (c : FilterConfig) (w : String) : Bool :=
  let lower := lowerFn w
  alphaFn lower && !profFn w && !decide (lower ∈ c.blacklist) &&
    !prefHit c lower && !sufHit c lower

/-- The word loop of `LanguageFilter.apply`: keep passing words whose lowercase
form was not seen yet. -/
def applyLoop (lowerFn : String → String) (alphaFn : String → Bool)
    (profFn : String → Bool) (c : FilterConfig) :
    List String → List String → List String
  | _, [] => []
  | seen, w :: ws =>
    if passesFilter lowerFn alphaFn profFn c w = true ∧ lowerFn w ∉ seen then
      w :: applyLoop lowerFn alphaFn profFn c (lowerFn w :: seen) ws
    else applyLoop lowerFn alphaFn profFn c seen ws

/-- Embeds `LanguageFilter.apply`: filter, dedup by lowercase form, and sort. The
`catalog` argument is unused by the code (`_catalog`). -/
def filterApply (lowerFn : String → String) (alphaFn : String → Bool)
    (profFn : String → Bool) (c : FilterConfig) (_catalog : Finset String)
    (words : List String) : List String :=
  List.insertionSort wordLe (applyLoop lowerFn alphaFn profFn c [] words)

/-- Embeds `_language_archetype` (src/filter.py lines 196-206). -/
def languageArchetype (lowerFn : String → String) (lang : String) :
    Option String :=
  let normalized := lowerFn (pyStrip lang)
  if normalized = "" then none
  else if normalized = "en" ∨ normalized = "de" then some normalized
  else
    let head := if '-' ∈ normalized.data then
        (⟨normalized.data.takeWhile (· ≠ '-')⟩ : String)
      else normalized
    if head = "" then none else some head

/-- Embeds `filter_candidates` (src/filter.py lines 136-159). `cfgFn` models
`load_filter_config`, the memoized JSON-backed configuration lookup by
archetype; `_get_filter_for_archetype` always yields a filter applying that
configuration. -/
def filter_candidates (lowerFn : String → String) (alphaFn : String → Bool)
    (profFn : String → Bool) (cfgFn : String → FilterConfig)
    (words : List String) (lang : String) (catalog : Finset String)
    (enableFilters : Bool) : List String :=
  if enableFilters = false then pySortedDedup words
  else
    let filtered := pySortedDedup words
    let filtered2 :=
      if filtered ≠ [] then
        filterApply lowerFn alphaFn profFn (cfgFn "global") catalog filtered
      else filtered
    match languageArchetype lowerFn lang with
    | none => filtered2
    | some a => filterApply lowerFn alphaFn profFn (cfgFn a) catalog filtered2

/-- Embeds `apply_language_filters` (src/filter.py lines 209-218): delegates to
`filter_candidates`. -/
def apply_language_filters (lowerFn : String → String) (alphaFn : String → Bool)
    (profFn : String → Bool) (cfgFn : String → FilterConfig) (lang : String)
    (words : List String) (catalog : Finset String) (enableFilters : Bool) :
    List String :=
  filter_candidates lowerFn alphaFn profFn cfgFn words lang catalog enableFilters

/-! ### Morphological heuristics (src/main.py lines 687-805) -/

/-- Embeds `_looks_plural_en`. -/
def _looks_plural_en (lowerFn : String → String) (word : String)
    (catalog : Finset String) : Bool :=
  let w := lowerFn word
  if w.data.length ≤ 3 then false
  else if pyEndsWith w "ies" && decide (3 < w.data.length) &&
      decide (strDropRight w 3 ++ "y" ∈ catalog) then true
  else if pyEndsWith w "ves" && decide (3 < w.data.length) &&
      (decide (strDropRight w 3 ++ "f" ∈ catalog) ||
        decide (strDropRight w 3 ++ "fe" ∈ catalog)) then true
  else if (["ses", "xes", "zes", "ches", "shes"].any fun s => pyEndsWith w s) &&
      decide (strDropRight w 2 ∈ catalog) then true
  else if pyEndsWith w "men" && decide (3 < w.data.length) &&
      decide (strDropRight w 3 ++ "man" ∈ catalog) then true
  else if pyEndsWith w "es" && decide (2 < w.data.length) &&
      decide (strDropRight w 2 ∈ catalog) then true
  else if pyEndsWith w "s" && decide (2 < w.data.length) &&
      !(["ss", "us", "is", "ous"].any fun s => pyEndsWith w s) &&
      decide (strDropRight w 1 ∈ catalog) then true
  else false

/-- Embeds `_looks_past_tense_en`. -/
def _looks_past_tense_en (lowerFn : String → String) (word : String)
    (catalog : Finset String) : Bool :=
  let w := lowerFn word
  if w.data.length ≤ 3 then false
  else if pyEndsWith w "ied" && decide (3 < w.data.length) &&
      decide (strDropRight w 3 ++ "y" ∈ catalog) then true
  else if pyEndsWith w "ed" && decide (3 < w.data.length) &&
      decide (strDropRight w 2 ∈ catalog) then true
  else if pyEndsWith w "t" && decide (3 < w.data.length) &&
      decide (strDropRight w 1 ∈ catalog) &&
      decide (strDropRight w 1 ++ "e" ∈ catalog) then true
  else false

/-- Embeds `_looks_plural_de`. -/
def _looks_plural_de (lowerFn : String → String) (word : String)
    (catalog : Finset String) : Bool :=
  let w := lowerFn word
  if w.data.length ≤ 3 then false
  else if pyEndsWith w "innen" && decide (5 < w.data.length) &&
      decide (strDropRight w 5 ++ "in" ∈ catalog) then true
  else if pyEndsWith w "er" && decide (3 < w.data.length) &&
      decide (strDropRight w 2 ∈ catalog) then true
  else if pyEndsWith w "en" && decide (3 < w.data.length) &&
      !(["chen", "lein"].any fun s => pyEndsWith w s) &&
      decide (strDropRight w 2 ∈ catalog) then true
  else if pyEndsWith w "e" && decide (3 < w.data.length) &&
      decide (strDropRight w 1 ∈ catalog) then true
  else if pyEndsWith w "s" && decide (3 < w.data.length) &&
      decide (strDropRight w 1 ∈ catalog) then true
  else false

/-- Embeds `_looks_past_tense_de`. -/
def _looks_past_tense_de (lowerFn : String → String) (word : String)
    (catalog : Finset String) : Bool :=
  let w := lowerFn word
  if w.data.length ≤ 3 then false
  else if pyStartsWith w "ge" && decide (4 < w.data.length) && pyEndsWith w "t" &&
      decide (strDropRight (strDropLeft w 2) 1 ++ "en" ∈ catalog) then true
  else if pyStartsWith w "ge" && decide (4 < w.data.length) && pyEndsWith w "en" &&
      decide (strDropLeft w 2 ∈ catalog) then true
  else
    ["te", "test", "tet", "ten"].any fun ending =>
      pyEndsWith w ending && decide (ending.data.length + 1 < w.data.length) &&
        decide (strDropRight w ending.data.length ++ "en" ∈ catalog)

/-- Embeds `_should_exclude_inflected` (src/main.py lines 796-805). -/
def _should_exclude_inflected (lowerFn : String → String) (word lang : String)
    (catalog : Finset String) : Bool :=
  if catalog = ∅ then false
  else if pyStartsWith lang "en" then
    _looks_plural_en lowerFn word catalog || _looks_past_tense_en lowerFn word catalog
  else if pyStartsWith lang "de" then
    _looks_plural_de lowerFn word catalog || _looks_past_tense_de lowerFn word catalog
  else false

instance exceptDecEq {ε α : Type} [DecidableEq ε] [DecidableEq α] :
    DecidableEq (Except ε α) := fun x y =>
  match x, y with
  | .error a, .error b =>
    if h : a = b then .isTrue (congrArg _ h)
    else .isFalse fun he => h (Except.error.inj he)
  | .ok a, .ok b =>
    if h : a = b then .isTrue (congrArg _ h)
    else .isFalse fun he => h (Except.ok.inj he)
  | .error _, .ok _ => .isFalse Except.noConfusion
  | .ok _, .error _ => .isFalse Except.noConfusion

/-! ### Filtered-solution loader (src/main.py lines 624-684) -/

/-- Embeds `DictionaryWordData` (src/main.py lines 447-459). -/
structure DictionaryWordData where
  base_words : Finset String
  affixed_words : Finset String
  catalog : Finset String

/-- Embeds `DictionaryWordData.combined`. -/
def DictionaryWordData.combined (d : DictionaryWordData) : Finset String :=
  d.base_words ∪ d.affixed_words

/-- Embeds `_load_or_build_filtered_solutions` with its two I/O collaborators made
explicit: `cached` is what `load_filtered_solution_cache` returned, `data` what
`_collect_dictionary_word_data` produced. `.error` models the raised
`ValueError`; the cache write is a side effect with no bearing on the returned
value. -/
def _load_or_build_filtered_solutions (lowerFn : String → String)
    (alphaFn : String → Bool) (profFn : String → Bool)
    (cfgFn : String → FilterConfig) (lang : String) (cached : List String)
    (data : DictionaryWordData) (enableFilters : Bool) :
    Except String (List String) :=
  if enableFilters = true ∧ cached ≠ [] then .ok cached
  else
    let generated := sortWords data.combined
    if generated = [] then .error "Dictionary candidate list empty."
    else if enableFilters = false then .ok generated
    else
      let filtered :=
        apply_language_filters lowerFn alphaFn profFn cfgFn lang generated
          data.catalog enableFilters
      .ok (if filtered = [] then generated else filtered)

/-! ### Filtered-solution cache (src/filter.py lines 241-260)

Both functions and their round trip are modelled at the file-content level: the
path computed from `(lang, word_length)` is deterministic, so saving and then
loading the same key reads back exactly the written content. -/

/-- Splitting file content into lines, the way iterating a Python text file and
stripping each line sees them (`content.split("\n")`). -/
def splitLines : List Char → List (List Char)
  | [] => [[]]
  | c :: cs =>
    if c = '\n' then [] :: splitLines cs
    else
      match splitLines cs with
      | [] => [[c]]
      | l :: ls => (c :: l) :: ls

/-- Embeds `load_filtered_solution_cache`: strip each line, keep the non-empty ones. -/
def load_filtered_solution_cache (content : List Char) : List String :=
  ((splitLines content).map fun l => (⟨pyStripL l⟩ : String)).filter (· ≠ "")

/-- Embeds `save_filtered_solution_cache`: the content written, one sorted deduplicated
word per line, each followed by a newline. -/
def save_filtered_solution_cache (ws : List String) : List Char :=
  (pySortedDedup ws).foldr (fun w acc => w.data ++ '\n' :: acc) []

/-! ### Dictionary entry parser (`parse_dic_entries`, src/main.py lines 227-254) -/

/-- Embeds `stripped.split("/", 1) if "/" in stripped else (stripped, "")`. -/
def splitFirstSlash (s : String) : String × String :=
  if '/' ∈ s.data then
    (⟨s.data.takeWhile (· ≠ '/')⟩, ⟨(s.data.dropWhile (· ≠ '/')).tail⟩)
  else (s, "")

/-- The line loop of `parse_dic_entries`; the `Bool` is the `first` flag.
`normW` models `_normalize_word` (Unicode NFC + lowercase, an external stdlib
capability). -/
def parseDicGo (normW : String → String) : Bool → List String → List (String × String)
  | _, [] => []
  | first, line :: rest =>
    let stripped := pyStrip line
    if stripped = "" then parseDicGo normW first rest
    else if first ∧ pyIsDigit stripped = true then parseDicGo normW false rest
    else
      let p := splitFirstSlash stripped
      (normW p.1, p.2) :: parseDicGo normW false rest

/-- Embeds `parse_dic_entries` over the lines of a `.dic` file. -/
def parse_dic_entries (normW : String → String) (lines : List String) :
    List (String × String) :=
  parseDicGo normW true lines

/-- Spec-side restatement for claim C10 (spec §4.2 and §8): drop a purely
numeric line exactly when it is the first non-blank line, and parse every other
non-blank line by splitting on the first slash. Stated from the spec's words, to
be compared with `parse_dic_entries`. -/
def dicEntriesSpec (normW : String → String) (lines : List String) :
    List (String × String) :=
  let nonBlank := ((lines.map pyStrip).filter (· ≠ ""))
  let body :=
    match nonBlank with
    | [] => []
    | s :: rest => if pyIsDigit s then rest else nonBlank
  body.map fun s => (normW (splitFirstSlash s).1, (splitFirstSlash s).2)

/-! ### Supporting lemmas -/

theorem mem_dedupFirstAux (l : List String) :
    ∀ seen w, w ∈ dedupFirstAux seen l ↔ w ∈ l ∧ w ∉ seen := by
  induction l with
  | nil => intro seen w; simp [dedupFirstAux]
  | cons x l ih =>
    intro seen w
    by_cases hx : x ∈ seen
    · simp only [dedupFirstAux, if_pos hx, ih, List.mem_cons]
      constructor
      · rintro ⟨hw, hns⟩; exact ⟨Or.inr hw, hns⟩
      · rintro ⟨hw | hw, hns⟩
        · exact absurd (hw ▸ hx) hns
        · exact ⟨hw, hns⟩
    · simp only [dedupFirstAux, if_neg hx, List.mem_cons, ih]
      constructor
      · rintro (rfl | ⟨hw, hns⟩)
        · exact ⟨Or.inl rfl, hx⟩
        · exact ⟨Or.inr hw, fun hm => hns (Or.inr hm)⟩
      · rintro ⟨rfl | hw, hns⟩
        · exact Or.inl rfl
        · by_cases hwx : w = x
          · exact Or.inl hwx
          · exact Or.inr ⟨hw, by simp [hwx, hns]⟩

theorem nodup_dedupFirstAux (l : List String) :
    ∀ seen, (dedupFirstAux seen l).Nodup := by
  induction l with
  | nil => intro seen; simp [dedupFirstAux]
  | cons x l ih =>
    intro seen
    by_cases hx : x ∈ seen
    · simpa only [dedupFirstAux, if_pos hx] using ih seen
    · rw [dedupFirstAux, if_neg hx]
      refine List.Nodup.cons ?_ (ih (x :: seen))
      intro hmem
      exact ((mem_dedupFirstAux l (x :: seen) x).mp hmem).2 (List.mem_cons_self x seen)

theorem dedupFirstAux_eq_self (l : List String) :
    ∀ seen, l.Nodup → (∀ w ∈ l, w ∉ seen) → dedupFirstAux seen l = l := by
  induction l with
  | nil => intro seen _ _; rfl
  | cons x l ih =>
    intro seen hnd hns
    rw [dedupFirstAux, if_neg (hns x (List.mem_cons_self x l))]
    congr 1
    refine ih (x :: seen) hnd.of_cons ?_
    intro w hw
    simp only [List.mem_cons, not_or]
    exact ⟨fun hwx => (List.nodup_cons.mp hnd).1 (hwx ▸ hw),
      hns w (List.mem_cons_of_mem _ hw)⟩

theorem mem_pyDedupKeys {l : List String} {w : String} :
    w ∈ pyDedupKeys l ↔ w ∈ l := by
  simp [pyDedupKeys, mem_dedupFirstAux]

theorem nodup_pyDedupKeys (l : List String) : (pyDedupKeys l).Nodup :=
  nodup_dedupFirstAux l []

theorem mem_pySortedDedup {l : List String} {w : String} :
    w ∈ pySortedDedup l ↔ w ∈ l := by
  rw [pySortedDedup, List.mem_insertionSort]
  exact mem_pyDedupKeys

theorem sorted_pySortedDedup (l : List String) :
    List.Sorted wordLe (pySortedDedup l) :=
  List.sorted_insertionSort wordLe (pyDedupKeys l)

theorem nodup_pySortedDedup (l : List String) : (pySortedDedup l).Nodup :=
  ((List.perm_insertionSort wordLe (pyDedupKeys l)).nodup_iff).mpr
    (nodup_pyDedupKeys l)

theorem pySortedDedup_eq_self {l : List String} (hs : List.Sorted wordLe l)
    (hn : l.Nodup) : pySortedDedup l = l := by
  rw [pySortedDedup, pyDedupKeys, dedupFirstAux_eq_self l [] hn (by simp)]
  exact hs.insertionSort_eq

theorem mem_sortWords {s : Finset String} {w : String} :
    w ∈ sortWords s ↔ w ∈ s := by
  rcases s with ⟨m, hm⟩
  induction m using Quotient.inductionOn with
  | h l =>
    show w ∈ List.insertionSort wordLe l ↔ _
    rw [List.mem_insertionSort]
    rfl

theorem sortWords_ne_nil {s : Finset String} (h : s ≠ ∅) : sortWords s ≠ [] := by
  rcases Finset.nonempty_iff_ne_empty.mpr h with ⟨w, hw⟩
  intro hnil
  have := mem_sortWords.mpr hw
  rw [hnil] at this
  exact absurd this (List.not_mem_nil w)

/-! ### Claim C10: dictionary-entry parsing of numeric lines -/

theorem parseDicGo_false (normW : String → String) (lines : List String) :
    parseDicGo normW false lines =
      ((lines.map pyStrip).filter (· ≠ "")).map
        (fun s => (normW (splitFirstSlash s).1, (splitFirstSlash s).2)) := by
  induction lines with
  | nil => rfl
  | cons line rest ih =>
    by_cases hs : pyStrip line = ""
    · simp [parseDicGo, hs, ih]
    · simp [parseDicGo, hs, ih]

/-- Claim C10: `parse_dic_entries` drops a purely numeric line only when it is
the first non-blank line (the hunspell count header); a numeric line at any
later position is parsed as an ordinary entry (split on the first slash, flags
empty when no slash occurs) and included in the result. Stated as equality with
the spec-side description `dicEntriesSpec`. -/
theorem parse_dic_entries_numeric_header (normW : String → String)
    (lines : List String) :
    parse_dic_entries normW lines = dicEntriesSpec normW lines := by
  rw [parse_dic_entries]
  induction lines with
  | nil => rfl
  | cons line rest ih =>
    by_cases hs : pyStrip line = ""
    · simpa [parseDicGo, hs, dicEntriesSpec] using ih
    · by_cases hd : pyIsDigit (pyStrip line) = true
      · simp [parseDicGo, hs, hd, dicEntriesSpec, parseDicGo_false]
      · simp [parseDicGo, hs, hd, dicEntriesSpec, parseDicGo_false]

/-! ### Claim C2: affix-rule recording -/

theorem addRule_sfx_mono (r : AffRules) (b : Bool) (flag st ad co g : String)
    (x : String × String × String) (hx : x ∈ r.sfx g) :
    x ∈ (r.addRule b flag st ad co).sfx g := by
  unfold AffRules.addRule
  split
  · dsimp only
    by_cases hg : g = flag
    · rw [if_pos hg]; exact List.mem_append_left _ hx
    · rwa [if_neg hg]
  · exact hx

theorem addRule_pfx_mono (r : AffRules) (b : Bool) (flag st ad co g : String)
    (x : String × String × String) (hx : x ∈ r.pfx g) :
    x ∈ (r.addRule b flag st ad co).pfx g := by
  unfold AffRules.addRule
  split
  · exact hx
  · dsimp only
    by_cases hg : g = flag
    · rw [if_pos hg]; exact List.mem_append_left _ hx
    · rwa [if_neg hg]

theorem parseAffLine_sfx_mono (r : AffRules) (line : String) (g : String)
    (x : String × String × String) (hx : x ∈ r.sfx g) :
    x ∈ (parseAffLine r line).sfx g := by
  unfold parseAffLine
  dsimp only
  split
  · exact hx
  split
  · exact hx
  split
  · split
    · exact hx
    split
    · exact addRule_sfx_mono _ _ _ _ _ _ _ _ hx
    · exact hx
  · exact hx

theorem parseAffLine_pfx_mono (r : AffRules) (line : String) (g : String)
    (x : String × String × String) (hx : x ∈ r.pfx g) :
    x ∈ (parseAffLine r line).pfx g := by
  unfold parseAffLine
  dsimp only
  split
  · exact hx
  split
  · exact hx
  split
  · split
    · exact hx
    split
    · exact addRule_pfx_mono _ _ _ _ _ _ _ _ hx
    · exact hx
  · exact hx

theorem foldl_parseAffLine_sfx_mono (ls : List String) :
    ∀ (r : AffRules) (g : String) (x : String × String × String),
      x ∈ r.sfx g → x ∈ (List.foldl parseAffLine r ls).sfx g := by
  induction ls with
  | nil => intro r g x hx; exact hx
  | cons line ls ih =>
    intro r g x hx
    exact ih _ _ _ (parseAffLine_sfx_mono r line g x hx)

theorem foldl_parseAffLine_pfx_mono (ls : List String) :
    ∀ (r : AffRules) (g : String) (x : String × String × String),
      x ∈ r.pfx g → x ∈ (List.foldl parseAffLine r ls).pfx g := by
  induction ls with
  | nil => intro r g x hx; exact hx
  | cons line ls ih =>
    intro r g x hx
    exact ih _ _ _ (parseAffLine_pfx_mono r line g x hx)

theorem parseAffLine_records (r : AffRules) (line : String)
    (t f p2 p3 co : String) (rest : List String)
    (hsplit : pySplit (pyStrip line) = t :: f :: p2 :: p3 :: co :: rest)
    (hcomment : pyStartsWith (pyStrip line) "#" = false)
    (hY : p2 ≠ "Y") (hN : p2 ≠ "N") :
    parseAffLine r line =
      if t = "SFX" ∨ t = "PFX" then
        r.addRule (decide (t = "SFX")) f (if p2 = "0" then "" else p2)
          (if p3 = "0" then "" else p3) co
      else r := by
  have hne : pyStrip line ≠ "" := by
    intro h0
    rw [h0] at hsplit
    exact List.noConfusion (hsplit.symm.trans rfl)
  unfold parseAffLine
  rw [if_neg hne, if_neg (by rw [hcomment]; exact Bool.false_ne_true), hsplit]
  dsimp only
  by_cases ht : t = "SFX" ∨ t = "PFX"
  · rw [if_pos ht]
    have hcond : ¬(t ≠ "SFX" ∧ t ≠ "PFX") := by
      rcases ht with h | h <;> simp [h]
    rw [if_neg hcond, if_pos ⟨List.cons_ne_nil co rest, hY, hN⟩]
  · rw [if_neg ht]
    push_neg at ht
    rw [if_pos (by exact ⟨ht.1, ht.2⟩)]

/-- Claim C2 counterexample: the line `"SFX A 0 en"` is a non-comment line whose
first whitespace-separated field is `SFX`, has exactly 4 fields, and whose third
field is neither `Y` nor `N`; the claim requires a rule with flag `A`, strip
`""`, add `"en"`, condition `"."` to be recorded, but `parse_aff_rules` records
nothing for it (the code demands at least 5 fields). -/
theorem parse_aff_rules_four_field_cex :
    pyStrip "SFX A 0 en" = "SFX A 0 en" ∧
    pySplit "SFX A 0 en" = ["SFX", "A", "0", "en"] ∧
    pyStartsWith "SFX A 0 en" "#" = false ∧
    (parse_aff_rules ["SFX A 0 en"]).sfx "A" = [] := by
  refine ⟨by decide, by decide, by decide, ?_⟩
  decide

/-- Claim C2 as amended: a rule is recorded for every non-comment line whose
first field is `SFX` or `PFX` and that has at least 5 whitespace-separated
fields with the third field not exactly `Y` and not exactly `N`; the rule's flag
is field 2, strip is field 3 (`"0"` meaning empty), add is field 4 (`"0"`
meaning empty) and the condition is field 5. (Lines with exactly 4 fields are
skipped; the code's `"."`-default for a missing condition is unreachable.) -/
theorem parse_aff_rules_records_amended (lines : List String) (line : String)
    (hmem : line ∈ lines) (t f p2 p3 co : String) (rest : List String)
    (hsplit : pySplit (pyStrip line) = t :: f :: p2 :: p3 :: co :: rest)
    (hcomment : pyStartsWith (pyStrip line) "#" = false)
    (hY : p2 ≠ "Y") (hN : p2 ≠ "N") :
    (t = "SFX" →
      ((if p2 = "0" then "" else p2), (if p3 = "0" then "" else p3), co) ∈
        (parse_aff_rules lines).sfx f) ∧
    (t = "PFX" →
      ((if p2 = "0" then "" else p2), (if p3 = "0" then "" else p3), co) ∈
        (parse_aff_rules lines).pfx f) := by
  obtain ⟨l1, l2, rfl⟩ := List.append_of_mem hmem
  rw [parse_aff_rules, List.foldl_append, List.foldl_cons]
  rw [parseAffLine_records _ line t f p2 p3 co rest hsplit hcomment hY hN]
  constructor
  · rintro rfl
    rw [if_pos (Or.inl rfl)]
    refine foldl_parseAffLine_sfx_mono l2 _ _ _ ?_
    unfold AffRules.addRule
    rw [if_pos (by simp)]
    simp
  · rintro rfl
    rw [if_pos (Or.inr rfl)]
    refine foldl_parseAffLine_pfx_mono l2 _ _ _ ?_
    unfold AffRules.addRule
    rw [if_neg (by simp)]
    simp

/-- Witness for the amended claim C2 at the concrete line `"SFX A 0 en ."`. -/
theorem parse_aff_rules_records_amended_witness :
    ("SFX A 0 en ." ∈ ["SFX A 0 en ."]) ∧
    pySplit (pyStrip "SFX A 0 en .") = ["SFX", "A", "0", "en", "."] ∧
    ("", "en", ".") ∈ (parse_aff_rules ["SFX A 0 en ."]).sfx "A" := by
  refine ⟨List.mem_singleton.mpr rfl, by decide, ?_⟩
  have h := parse_aff_rules_records_amended ["SFX A 0 en ."] "SFX A 0 en ."
    (List.mem_singleton.mpr rfl) "SFX" "A" "0" "en" "." [] (by decide) (by decide)
    (by decide) (by decide)
  simpa using h.1 rfl

/-! ### Claim C3: regex errors in conditions fail open -/

/-- Claim C3: during affix candidate generation, a regex error raised while
matching a rule's condition never rejects the candidate and (being caught by
the `try`/`except`) never propagates: when the oracle reports `re.error` for
the compiled condition, the candidate is kept exactly when the length and
allowed-alphabet checks succeed — for suffix rules (first conjunct, under the
blocked-set and strip checks that precede condition evaluation) and prefix
rules (second conjunct) alike. -/
theorem affix_condition_fail_open (O : ReOracle) (lowerFn : String → String)
    (blocked : Option (Finset String)) (wl : Nat) (base st ad co : String) :
    (blockedHit lowerFn blocked ad = false →
      (st = "" ∨ pyEndsWith base st = true) →
      O.search (co ++ "$") (sfxStem base st) = .error () →
      sfxCandidate O lowerFn blocked wl base (st, ad, co) =
        (if (sfxStem base st ++ ad).data.length = wl ∧
            lettersMatch (sfxStem base st ++ ad) then
          some (sfxStem base st ++ ad)
        else none)) ∧
    ((st = "" ∨ pyStartsWith base st = true) →
      O.rmatch ("^" ++ co) (pfxStem base st) = .error () →
      pfxCandidate O wl base (st, ad, co) =
        (if (ad ++ pfxStem base st).data.length = wl ∧
            lettersMatch (ad ++ pfxStem base st) then
          some (ad ++ pfxStem base st)
        else none)) := by
  constructor
  · intro hblock hstrip herr
    unfold sfxCandidate
    dsimp only
    rw [if_neg (by rw [hblock]; exact Bool.false_ne_true)]
    rw [if_neg (by rintro ⟨hne, hends⟩; rcases hstrip with h | h
                   · exact hne h
                   · rw [h] at hends; exact Bool.noConfusion hends)]
    by_cases hco : co = ""
    · rw [if_pos (by rw [hco]; rfl)]
    · rw [if_pos (by rw [if_neg hco, herr])]
  · intro hstrip herr
    unfold pfxCandidate
    dsimp only
    rw [if_neg (by rintro ⟨hne, hstarts⟩; rcases hstrip with h | h
                   · exact hne h
                   · rw [h] at hstarts; exact Bool.noConfusion hstarts)]
    by_cases hco : co = ""
    · rw [if_pos (by rw [hco]; rfl)]
    · rw [if_pos (by rw [if_neg hco, herr])]

/-- Witness for claim C3: with an oracle whose every call raises `re.error`
(as for the syntactically invalid condition `"("`), the suffix rule
`strip="", add="s"` applied to base `"run"` keeps candidate `"runs"`. -/
theorem affix_condition_fail_open_witness :
    blockedHit (fun s => s) none "s" = false ∧
    (("" : String) = "" ∨ pyEndsWith "run" "" = true) ∧
    (ReOracle.mk (fun _ _ => .error ()) (fun _ _ => .error ())).search
        ("(" ++ "$") (sfxStem "run" "") = .error () ∧
    sfxCandidate ⟨fun _ _ => .error (), fun _ _ => .error ()⟩ (fun s => s) none 4
        "run" ("", "s", "(") = some "runs" := by
  refine ⟨rfl, Or.inl rfl, rfl, ?_⟩
  have h := (affix_condition_fail_open ⟨fun _ _ => .error (), fun _ _ => .error ()⟩
    (fun s => s) none 4 "run" "" "s" "(").1 rfl (Or.inl rfl) rfl
  rw [h]
  decide

/-! ### Claim C4: filtered-to-empty falls back to the unfiltered list -/

/-- Claim C4: with filters enabled and no usable cached list, whenever the
generated candidate set is non-empty, `_load_or_build_filtered_solutions`
returns (never raises) a non-empty list; and when `apply_language_filters`
returns the empty list the full sorted unfiltered generated word list is
returned instead. -/
theorem filtered_solutions_fallback (lowerFn : String → String)
    (alphaFn : String → Bool) (profFn : String → Bool)
    (cfgFn : String → FilterConfig) (lang : String) (cached : List String)
    (data : DictionaryWordData) (hcached : cached = [])
    (hne : data.combined ≠ ∅) :
    ∃ l, _load_or_build_filtered_solutions lowerFn alphaFn profFn cfgFn lang
        cached data true = .ok l ∧ l ≠ [] ∧
      (apply_language_filters lowerFn alphaFn profFn cfgFn lang
          (sortWords data.combined) data.catalog true = [] →
        l = sortWords data.combined) := by
  subst hcached
  have hgen : sortWords data.combined ≠ [] := sortWords_ne_nil hne
  unfold _load_or_build_filtered_solutions
  rw [if_neg (by rintro ⟨-, h⟩; exact h rfl)]
  dsimp only
  rw [if_neg hgen, if_neg (by decide)]
  by_cases hf : apply_language_filters lowerFn alphaFn profFn cfgFn lang
      (sortWords data.combined) data.catalog true = []
  · exact ⟨sortWords data.combined, by rw [if_pos hf], hgen, fun _ => rfl⟩
  · exact ⟨_, by rw [if_neg hf], hf, fun h => absurd h hf⟩

/-- Witness for claim C4 at a concrete one-word candidate set. -/
theorem filtered_solutions_fallback_witness :
    (([] : List String) = []) ∧
    (DictionaryWordData.mk {"cat"} ∅ {"cat"}).combined ≠ ∅ ∧
    ∃ l, _load_or_build_filtered_solutions (fun s => s) (fun _ => true)
        (fun _ => false) (fun _ => ⟨[], [], []⟩) "en" []
        ⟨{"cat"}, ∅, {"cat"}⟩ true = .ok l ∧ l ≠ [] ∧
      (apply_language_filters (fun s => s) (fun _ => true) (fun _ => false)
          (fun _ => ⟨[], [], []⟩) "en"
          (sortWords (DictionaryWordData.mk {"cat"} ∅ {"cat"}).combined)
          {"cat"} true = [] →
        l = sortWords (DictionaryWordData.mk {"cat"} ∅ {"cat"}).combined) :=
  ⟨rfl, by decide,
    filtered_solutions_fallback (fun s => s) (fun _ => true) (fun _ => false)
      (fun _ => ⟨[], [], []⟩) "en" [] ⟨{"cat"}, ∅, {"cat"}⟩ rfl (by decide)⟩

/-! ### Claim C6: the medium-strictness exclusion is never applied -/

/-- Claim C6 exhibits a bug: `_should_exclude_inflected` flags `"cats"` as
inflected for English over the catalog `{"cat", "cats"}` (its own docstring
says such words are "to skip on medium mode"), yet the solution list built by
`_load_or_build_filtered_solutions` — the only pool secrets are drawn from —
still contains `"cats"`: no code path ever calls the heuristic. -/
theorem medium_mode_inflected_bug :
    _should_exclude_inflected (fun s => s) "cats" "en" {"cat", "cats"} = true ∧
    _load_or_build_filtered_solutions (fun s => s) (fun _ => true)
        (fun _ => false) (fun _ => (⟨[], [], []⟩ : FilterConfig)) "en" []
        ⟨{"cat", "cats"}, ∅, {"cat", "cats"}⟩ true = .ok ["cat", "cats"] := by
  constructor
  · decide
  · decide

/-! ### Claim C7: the `("run", "S")` expansion example -/

/-- Claim C7: with the single entry `("run", "S")` and the single suffix rule
`S: strip="" add="s" cond="."`, target length 4: the expansion contains
`"runs"`; with `blocked_suffix_additions = {"s"}` the same call generates no
candidate at all (so the result set is empty, the base being of length 3). The
two hypotheses pin the external collaborators at the points used: Python's
`re.search(".$", "run")` matches, and `"s".lower() == "s"`. -/
theorem expand_with_affixes_run_example (O : ReOracle) (lowerFn : String → String)
    (hsearch : O.search ".$" "run" = .ok true) (hlower : lowerFn "s" = "s") :
    "runs" ∈ expand_with_affixes O lowerFn [("run", "S")]
        (AffRules.empty.addRule true "S" "" "s" ".") 4 none ∧
    expand_with_affixes O lowerFn [("run", "S")]
        (AffRules.empty.addRule true "S" "" "s" ".") 4 (some {"s"}) = ∅ := by
  have hrules_s : (AffRules.empty.addRule true "S" "" "s" ".").sfx
      (String.singleton 'S') = [("", "s", ".")] := by decide
  have hrules_p : (AffRules.empty.addRule true "S" "" "s" ".").pfx
      (String.singleton 'S') = [] := by decide
  have hcand : sfxCandidate O lowerFn none 4 "run" ("", "s", ".") = some "runs" := by
    unfold sfxCandidate
    dsimp only
    rw [if_neg (show ¬blockedHit lowerFn none "s" = true from fun h => Bool.noConfusion h)]
    rw [if_neg (show ¬(("" : String) ≠ "" ∧ pyEndsWith "run" "" = false) from
      fun h => h.1 rfl)]
    rw [if_neg (show ¬("." : String) = "" by decide)]
    rw [show ("." ++ "$" : String) = ".$" from rfl]
    rw [show sfxStem "run" "" = "run" from by decide]
    rw [hsearch]
    decide
  have hblocked : blockedHit lowerFn (some {"s"}) "s" = true := by
    unfold blockedHit
    rw [hlower]
    decide
  have hcand2 : sfxCandidate O lowerFn (some {"s"}) 4 "run" ("", "s", ".") = none := by
    unfold sfxCandidate
    dsimp only
    rw [if_pos hblocked]
  have hgen : _generate_affixed_candidates O lowerFn "run" "S"
      (AffRules.empty.addRule true "S" "" "s" ".") 4 none = ["runs"] := by
    unfold _generate_affixed_candidates
    rw [show ("S" : String).data = ['S'] from rfl]
    simp [hrules_s, hrules_p, hcand]
  have hgen2 : _generate_affixed_candidates O lowerFn "run" "S"
      (AffRules.empty.addRule true "S" "" "s" ".") 4 (some {"s"}) = [] := by
    unfold _generate_affixed_candidates
    rw [show ("S" : String).data = ['S'] from rfl]
    simp [hrules_s, hrules_p, hcand2]
  constructor
  · unfold expand_with_affixes
    rw [List.foldl_cons, List.foldl_nil]
    unfold expandStep
    dsimp only
    rw [if_neg (show ¬(("run" : String).data.length = 4 ∧ lettersMatch "run" = true) from
      fun h => by exact absurd h.1 (by decide))]
    rw [hgen]
    simp
  · unfold expand_with_affixes
    rw [List.foldl_cons, List.foldl_nil]
    unfold expandStep
    dsimp only
    rw [if_neg (show ¬(("run" : String).data.length = 4 ∧ lettersMatch "run" = true) from
      fun h => by exact absurd h.1 (by decide))]
    rw [hgen2]
    simp

/-- Witness for claim C7 with a concrete oracle realising the pinned
behaviour. -/
theorem expand_with_affixes_run_example_witness :
    (ReOracle.mk (fun p s => .ok (decide (p = ".$") && decide (s = "run")))
        (fun _ _ => .ok true)).search ".$" "run" = .ok true ∧
    (fun s : String => s) "s" = "s" ∧
    ("runs" ∈ expand_with_affixes
        ⟨fun p s => .ok (decide (p = ".$") && decide (s = "run")),
          fun _ _ => .ok true⟩ (fun s => s) [("run", "S")]
        (AffRules.empty.addRule true "S" "" "s" ".") 4 none ∧
      expand_with_affixes
        ⟨fun p s => .ok (decide (p = ".$") && decide (s = "run")),
          fun _ _ => .ok true⟩ (fun s => s) [("run", "S")]
        (AffRules.empty.addRule true "S" "" "s" ".") 4 (some {"s"}) = ∅) :=
  ⟨by decide, rfl, expand_with_affixes_run_example _ _ (by decide) rfl⟩

/-! ### Claim C8: shape of every expanded word -/

theorem sfxCandidate_some_shape {O : ReOracle} {lowerFn : String → String}
    {blocked : Option (Finset String)} {wl : Nat} {base : String}
    {rule : String × String × String} {w : String}
    (h : sfxCandidate O lowerFn blocked wl base rule = some w) :
    w.data.length = wl ∧ lettersMatch w = true := by
  unfold sfxCandidate at h
  dsimp only at h
  repeat' split at h
  all_goals first
    | exact Option.noConfusion h
    | (obtain rfl : _ = w := Option.some.inj h; assumption)

theorem pfxCandidate_some_shape {O : ReOracle} {wl : Nat} {base : String}
    {rule : String × String × String} {w : String}
    (h : pfxCandidate O wl base rule = some w) :
    w.data.length = wl ∧ lettersMatch w = true := by
  unfold pfxCandidate at h
  dsimp only at h
  repeat' split at h
  all_goals first
    | exact Option.noConfusion h
    | (obtain rfl : _ = w := Option.some.inj h; assumption)

theorem generate_mem_shape {O : ReOracle} {lowerFn : String → String}
    {base flags : String} {rules : AffRules} {wl : Nat}
    {blocked : Option (Finset String)} {w : String}
    (hw : w ∈ _generate_affixed_candidates O lowerFn base flags rules wl blocked) :
    w.data.length = wl ∧ lettersMatch w = true := by
  unfold _generate_affixed_candidates at hw
  rw [List.mem_flatMap] at hw
  obtain ⟨fl, -, hw⟩ := hw
  rw [List.mem_append] at hw
  rcases hw with hw | hw <;> rw [List.mem_filterMap] at hw
  · obtain ⟨r, -, hr⟩ := hw
    exact sfxCandidate_some_shape hr
  · obtain ⟨r, -, hr⟩ := hw
    exact pfxCandidate_some_shape hr

theorem expand_foldl_shape {O : ReOracle} {lowerFn : String → String}
    {rules : AffRules} {wl : Nat} {blocked : Option (Finset String)} :
    ∀ (entries : List (String × String)) (acc : Finset String),
      (∀ x ∈ acc, x.data.length = wl ∧ lettersMatch x = true) →
      ∀ w ∈ entries.foldl (expandStep O lowerFn rules wl blocked) acc,
        w.data.length = wl ∧ lettersMatch w = true := by
  intro entries
  induction entries with
  | nil => intro acc hacc w hw; exact hacc w hw
  | cons e entries ih =>
    intro acc hacc w hw
    rw [List.foldl_cons] at hw
    refine ih _ ?_ w hw
    intro x hx
    unfold expandStep at hx
    rw [Finset.mem_union] at hx
    rcases hx with hx | hx
    · split at hx
      · rename_i hc
        rw [Finset.mem_insert] at hx
        rcases hx with rfl | hx
        · exact hc
        · exact hacc x hx
      · exact hacc x hx
    · rw [List.mem_toFinset] at hx
      exact generate_mem_shape hx

/-- Claim C8 counterexample: with the entry `("aaaa\n", "")` (a base of length 5
ending in a newline) and target length 5, `expand_with_affixes` outputs
`"aaaa\n"`, because Python's `$` in `^[a-zäöüß]+$` also matches just before a
trailing newline; the output word contains the character `'\n'`, which is not in
the allowed alphabet — refuting the claim that no out-of-set character ever
appears. -/
theorem expand_trailing_newline_cex :
    "aaaa\n" ∈ expand_with_affixes ⟨fun _ _ => .ok true, fun _ _ => .ok true⟩
        (fun s => s) [("aaaa\n", "")] AffRules.empty 5 none ∧
    "aaaa\n".data.length = 5 ∧
    '\n' ∈ "aaaa\n".data ∧ isAllowedLetter '\n' = false := by
  refine ⟨?_, by decide, by decide, by decide⟩
  decide

/-- Claim C8 as amended: every word in the set returned by
`expand_with_affixes` has length exactly the target length and matches
`^[a-zäöüß]+$`: it consists solely of allowed letters (lowercase a-z plus
ä/ö/ü/ß), except that the final character may instead be a single trailing
newline after a non-empty run of allowed letters (Python's `$` quirk). -/
theorem expand_length_alphabet_amended (O : ReOracle)
    (lowerFn : String → String) (entries : List (String × String))
    (rules : AffRules) (wl : Nat) (blocked : Option (Finset String)) (w : String)
    (hw : w ∈ expand_with_affixes O lowerFn entries rules wl blocked) :
    w.data.length = wl ∧
    ((w.data ≠ [] ∧ w.data.all isAllowedLetter = true) ∨
      (w.data.getLast? = some '\n' ∧ w.data.dropLast ≠ [] ∧
        w.data.dropLast.all isAllowedLetter = true)) := by
  unfold expand_with_affixes at hw
  obtain ⟨hlen, hmatch⟩ := expand_foldl_shape entries ∅ (by simp) w hw
  refine ⟨hlen, ?_⟩
  unfold lettersMatch at hmatch
  dsimp only at hmatch
  rw [Bool.and_eq_true, Bool.not_eq_true', List.isEmpty_eq_false_iff_exists_mem] at hmatch
  by_cases hlast : w.data.getLast? = some '\n'
  · rw [if_pos hlast] at hmatch
    refine Or.inr ⟨hlast, ?_, hmatch.2⟩
    obtain ⟨x, hx⟩ := hmatch.1
    exact List.ne_nil_of_mem hx
  · rw [if_neg hlast] at hmatch
    refine Or.inl ⟨?_, hmatch.2⟩
    obtain ⟨x, hx⟩ := hmatch.1
    exact List.ne_nil_of_mem hx

/-- Witness for the amended claim C8 at a concrete expansion. -/
theorem expand_length_alphabet_amended_witness :
    ("aaaa" ∈ expand_with_affixes ⟨fun _ _ => .ok true, fun _ _ => .ok true⟩
        (fun s => s) [("aaaa", "")] AffRules.empty 4 none) ∧
    ("aaaa".data.length = 4 ∧
      (("aaaa".data ≠ [] ∧ "aaaa".data.all isAllowedLetter = true) ∨
        ("aaaa".data.getLast? = some '\n' ∧ "aaaa".data.dropLast ≠ [] ∧
          "aaaa".data.dropLast.all isAllowedLetter = true))) :=
  ⟨by decide,
    expand_length_alphabet_amended ⟨fun _ _ => .ok true, fun _ _ => .ok true⟩
      (fun s => s) [("aaaa", "")] AffRules.empty 4 none "aaaa" (by decide)⟩

/-! ### Claim C9: filtered-solution cache round trip -/

theorem splitLines_append (xs ys : List Char) (h : '\n' ∉ xs) :
    splitLines (xs ++ '\n' :: ys) = xs :: splitLines ys := by
  induction xs with
  | nil => simp [splitLines]
  | cons x xs ih =>
    have hx : x ≠ '\n' := fun hx => h (hx ▸ List.mem_cons_self x xs)
    have hxs : '\n' ∉ xs := fun hm => h (List.mem_cons_of_mem x hm)
    rw [List.cons_append, splitLines, if_neg hx, ih hxs]

theorem dropWhile_eq_self_of_all {p : Char → Bool} {cs : List Char}
    (h : ∀ c ∈ cs, p c = false) : cs.dropWhile p = cs := by
  cases cs with
  | nil => rfl
  | cons c cs =>
    rw [List.dropWhile_cons, if_neg]
    rw [h c (List.mem_cons_self c cs)]
    exact Bool.false_ne_true

theorem pyStripL_eq_self {cs : List Char} (h : ∀ c ∈ cs, isPyWs c = false) :
    pyStripL cs = cs := by
  unfold pyStripL
  rw [dropWhile_eq_self_of_all h,
    dropWhile_eq_self_of_all (fun c hc => h c (List.mem_reverse.mp hc)),
    List.reverse_reverse]

theorem load_of_save_list (l : List String)
    (h : ∀ w ∈ l, w ≠ "" ∧ ∀ c ∈ w.data, isPyWs c = false) :
    load_filtered_solution_cache
      (l.foldr (fun w acc => w.data ++ '\n' :: acc) []) = l := by
  induction l with
  | nil => rfl
  | cons w l ih =>
    obtain ⟨hw, hchars⟩ := h w (List.mem_cons_self w l)
    have hn : '\n' ∉ w.data := by
      intro hm
      have := hchars '\n' hm
      rw [show isPyWs '\n' = true from rfl] at this
      exact Bool.noConfusion this
    rw [List.foldr_cons]
    unfold load_filtered_solution_cache
    rw [splitLines_append _ _ hn, List.map_cons, List.filter_cons]
    have hsw : (⟨pyStripL w.data⟩ : String) = w := by
      rw [pyStripL_eq_self hchars]
    rw [hsw]
    rw [if_pos (by simpa using hw)]
    exact congrArg (w :: ·) (ih fun x hx => h x (List.mem_cons_of_mem w hx))

/-- Claim C9: for every collection of non-empty, whitespace-free words, saving
the filtered-solution cache and loading it back (same `(language, length)` key,
hence the same file) returns exactly the lexicographically sorted,
duplicate-free list of the saved words. -/
theorem solution_cache_roundtrip (ws : List String)
    (h : ∀ w ∈ ws, w ≠ "" ∧ ∀ c ∈ w.data, isPyWs c = false) :
    load_filtered_solution_cache (save_filtered_solution_cache ws) =
      pySortedDedup ws ∧
    List.Sorted wordLe (pySortedDedup ws) ∧ (pySortedDedup ws).Nodup ∧
    ∀ w, w ∈ pySortedDedup ws ↔ w ∈ ws := by
  refine ⟨?_, sorted_pySortedDedup ws, nodup_pySortedDedup ws,
    fun w => mem_pySortedDedup⟩
  unfold save_filtered_solution_cache
  exact load_of_save_list (pySortedDedup ws)
    (fun w hw => h w (mem_pySortedDedup.mp hw))

/-- Witness for claim C9 at a concrete word list with a duplicate. -/
theorem solution_cache_roundtrip_witness :
    (∀ w ∈ ["dog", "cat", "dog"], w ≠ "" ∧ ∀ c ∈ w.data, isPyWs c = false) ∧
    (load_filtered_solution_cache
        (save_filtered_solution_cache ["dog", "cat", "dog"]) =
      pySortedDedup ["dog", "cat", "dog"] ∧
    List.Sorted wordLe (pySortedDedup ["dog", "cat", "dog"]) ∧
    (pySortedDedup ["dog", "cat", "dog"]).Nodup ∧
    ∀ w, w ∈ pySortedDedup ["dog", "cat", "dog"] ↔ w ∈ ["dog", "cat", "dog"]) :=
  ⟨by decide, solution_cache_roundtrip ["dog", "cat", "dog"] (by decide)⟩

/-! ### Claim C1: guess scorer invariants -/

theorem scorePass1_fst_length (gs : List Char) :
    ∀ ts, (scorePass1 gs ts).1.length = min gs.length ts.length := by
  induction gs with
  | nil => intro ts; cases ts <;> simp [scorePass1]
  | cons g gs ih =>
    intro ts
    cases ts with
    | nil => simp [scorePass1]
    | cons t ts =>
      by_cases h : g = t <;>
        simp [scorePass1, h, ih, Nat.succ_min_succ]

theorem scorePass2_length (gs : List Char) :
    ∀ ms rem, (scorePass2 gs ms rem).length = min gs.length ms.length := by
  induction gs with
  | nil => intro ms rem; cases ms <;> simp [scorePass2]
  | cons g gs ih =>
    intro ms rem
    cases ms with
    | nil => simp [scorePass2]
    | cons m ms =>
      by_cases hm : m = 'G'
      · simp [scorePass2, hm, ih, Nat.succ_min_succ]
      · by_cases hc : 0 < rem.count g <;>
          simp [scorePass2, hm, hc, ih, Nat.succ_min_succ]

theorem scorePass1_markers_GB (gs : List Char) :
    ∀ ts, ∀ m ∈ (scorePass1 gs ts).1, m = 'G' ∨ m = 'B' := by
  induction gs with
  | nil => intro ts; cases ts <;> simp [scorePass1]
  | cons g gs ih =>
    intro ts
    cases ts with
    | nil => simp [scorePass1]
    | cons t ts =>
      by_cases h : g = t
      · simp only [scorePass1, if_pos h]
        intro m hm
        rcases List.mem_cons.mp hm with rfl | hm
        · exact Or.inl rfl
        · exact ih ts m hm
      · simp only [scorePass1, if_neg h]
        intro m hm
        rcases List.mem_cons.mp hm with rfl | hm
        · exact Or.inr rfl
        · exact ih ts m hm

theorem scorePass1_rem_count (c : Char) (gs : List Char) :
    ∀ ts, (scorePass1 gs ts).2.count c =
      (gs.zip ts).countP fun p => !decide (p.1 = p.2) && decide (p.2 = c) := by
  induction gs with
  | nil => intro ts; cases ts <;> simp [scorePass1]
  | cons g gs ih =>
    intro ts
    cases ts with
    | nil => simp [scorePass1]
    | cons t ts =>
      by_cases h : g = t
      · simp [scorePass1, h, ih, List.countP_cons]
      · simp [scorePass1, h, ih, List.countP_cons, List.count_cons, beq_iff_eq]

theorem zip_snd_countP_le (c : Char) (gs : List Char) :
    ∀ ts : List Char,
      ((gs.zip ts).countP fun p => decide (p.2 = c)) ≤ ts.count c := by
  induction gs with
  | nil => intro ts; simp
  | cons g gs ih =>
    intro ts
    cases ts with
    | nil => simp
    | cons t ts =>
      simp only [List.zip_cons_cons, List.countP_cons, List.count_cons, beq_iff_eq]
      have hrec := ih ts
      by_cases ht : t = c <;> simp [ht] <;> omega

theorem scorePass2_green_zip (c : Char) (gs : List Char) :
    ∀ ms rem,
      ((gs.zip (scorePass2 gs ms rem)).countP
          fun p => decide (p.1 = c) && decide (p.2 = 'G')) =
        (gs.zip ms).countP fun p => decide (p.1 = c) && decide (p.2 = 'G') := by
  induction gs with
  | nil => intro ms rem; simp [scorePass2]
  | cons g gs ih =>
    intro ms rem
    cases ms with
    | nil => simp [scorePass2]
    | cons m ms =>
      by_cases hm : m = 'G'
      · simp [scorePass2, hm, ih, List.countP_cons]
      · by_cases hc : 0 < rem.count g
        · simp [scorePass2, hm, hc, ih, List.countP_cons]
        · simp [scorePass2, hm, hc, ih, List.countP_cons]

theorem scorePass1_green_zip (c : Char) (gs : List Char) :
    ∀ ts,
      ((gs.zip (scorePass1 gs ts).1).countP
          fun p => decide (p.1 = c) && decide (p.2 = 'G')) =
        (gs.zip ts).countP fun p => decide (p.1 = p.2) && decide (p.1 = c) := by
  induction gs with
  | nil => intro ts; cases ts <;> simp [scorePass1]
  | cons g gs ih =>
    intro ts
    cases ts with
    | nil => simp [scorePass1]
    | cons t ts =>
      by_cases h : g = t
      · simp [scorePass1, h, ih, List.countP_cons]
      · simp [scorePass1, h, ih, List.countP_cons]

theorem scorePass2_countG (gs : List Char) :
    ∀ ms rem, gs.length = ms.length →
      (scorePass2 gs ms rem).count 'G' = ms.count 'G' := by
  induction gs with
  | nil =>
    intro ms rem h
    cases ms with
    | nil => rfl
    | cons m ms => exact absurd h (by simp)
  | cons g gs ih =>
    intro ms rem h
    cases ms with
    | nil => exact absurd h (by simp)
    | cons m ms =>
      have h' : gs.length = ms.length := by simpa using h
      by_cases hm : m = 'G'
      · simp [scorePass2, hm, ih _ _ h', List.count_cons]
      · by_cases hc : 0 < rem.count g
        · simp [scorePass2, hm, hc, ih _ _ h', List.count_cons, beq_iff_eq]
        · simp [scorePass2, hm, hc, ih _ _ h', List.count_cons, beq_iff_eq]

theorem scorePass1_countG (gs : List Char) :
    ∀ ts, (scorePass1 gs ts).1.count 'G' =
      (gs.zip ts).countP fun p => decide (p.1 = p.2) := by
  induction gs with
  | nil => intro ts; cases ts <;> simp [scorePass1]
  | cons g gs ih =>
    intro ts
    cases ts with
    | nil => simp [scorePass1]
    | cons t ts =>
      by_cases h : g = t
      · simp [scorePass1, h, ih, List.countP_cons, List.count_cons]
      · simp [scorePass1, h, ih, List.countP_cons, List.count_cons]

theorem scorePass2_yellow_le (c : Char) (gs : List Char) :
    ∀ ms rem, (∀ m ∈ ms, m = 'G' ∨ m = 'B') →
      ((gs.zip (scorePass2 gs ms rem)).countP
          fun p => decide (p.1 = c) && decide (p.2 = 'Y')) ≤ rem.count c := by
  induction gs with
  | nil => intro ms rem _; simp [scorePass2]
  | cons g gs ih =>
    intro ms rem hms
    cases ms with
    | nil => simp [scorePass2]
    | cons m ms =>
      have hms' : ∀ x ∈ ms, x = 'G' ∨ x = 'B' :=
        fun x hx => hms x (List.mem_cons_of_mem m hx)
      by_cases hm : m = 'G'
      · simpa [scorePass2, hm, List.countP_cons] using ih ms rem hms'
      · by_cases hc : 0 < rem.count g
        · simp only [scorePass2, if_neg hm, if_pos hc, List.zip_cons_cons,
            List.countP_cons]
          by_cases hg : g = c
          · subst hg
            have hrec := ih ms (rem.erase g) hms'
            rw [List.count_erase_self] at hrec
            simp
            omega
          · have hrec := ih ms (rem.erase g) hms'
            rw [List.count_erase_of_ne (Ne.symm hg) rem] at hrec
            simp [hg]
            omega
        · have hmB : m = 'B' := by
            rcases hms m (List.mem_cons_self m ms) with h | h
            · exact absurd h hm
            · exact h
          simp [scorePass2, hm, hc, hmB, List.countP_cons, ih ms rem hms']

theorem scorePass2_GYB (gs : List Char) :
    ∀ ms rem, (∀ m ∈ ms, m = 'G' ∨ m = 'B') →
      ∀ x ∈ scorePass2 gs ms rem, x = 'G' ∨ x = 'Y' ∨ x = 'B' := by
  induction gs with
  | nil => intro ms rem _ x hx; simp [scorePass2] at hx
  | cons g gs ih =>
    intro ms rem hms
    cases ms with
    | nil => intro x hx; simp [scorePass2] at hx
    | cons m ms =>
      have hms' : ∀ x ∈ ms, x = 'G' ∨ x = 'B' :=
        fun x hx => hms x (List.mem_cons_of_mem m hx)
      intro x hx
      by_cases hm : m = 'G'
      · rw [scorePass2, if_pos hm] at hx
        rcases List.mem_cons.mp hx with rfl | hx
        · exact Or.inl rfl
        · exact ih ms rem hms' x hx
      · by_cases hc : 0 < rem.count g
        · rw [scorePass2, if_neg hm, if_pos hc] at hx
          rcases List.mem_cons.mp hx with rfl | hx
          · exact Or.inr (Or.inl rfl)
          · exact ih ms (rem.erase g) hms' x hx
        · rw [scorePass2, if_neg hm, if_neg hc] at hx
          rcases List.mem_cons.mp hx with rfl | hx
          · rcases hms x (List.mem_cons_self x ms) with h | h
            · exact Or.inl h
            · exact Or.inr (Or.inr h)
          · exact ih ms rem hms' x hx

theorem countP_nonB_split (c : Char) (l : List (Char × Char))
    (hl : ∀ p ∈ l, p.2 = 'G' ∨ p.2 = 'Y' ∨ p.2 = 'B') :
    (l.countP fun p => decide (p.1 = c) && !decide (p.2 = 'B')) =
      (l.countP fun p => decide (p.1 = c) && decide (p.2 = 'G')) +
        (l.countP fun p => decide (p.1 = c) && decide (p.2 = 'Y')) := by
  induction l with
  | nil => simp
  | cons p l ih =>
    have hl' : ∀ q ∈ l, q.2 = 'G' ∨ q.2 = 'Y' ∨ q.2 = 'B' :=
      fun q hq => hl q (List.mem_cons_of_mem p hq)
    have hrec := ih hl'
    rcases hl p (List.mem_cons_self p l) with h | h | h <;>
      by_cases hp : p.1 = c <;>
        simp [List.countP_cons, h, hp, hrec] <;> omega

theorem countP_match_snd_split (c : Char) (l : List (Char × Char)) :
    (l.countP fun p => decide (p.1 = p.2) && decide (p.2 = c)) +
      (l.countP fun p => !decide (p.1 = p.2) && decide (p.2 = c)) =
      l.countP fun p => decide (p.2 = c) := by
  induction l with
  | nil => simp
  | cons p l ih =>
    have hone : (if (decide (p.1 = p.2) && decide (p.2 = c)) = true then 1 else 0) +
        (if (!decide (p.1 = p.2) && decide (p.2 = c)) = true then 1 else 0) =
        (if decide (p.2 = c) = true then (1 : Nat) else 0) := by
      by_cases h : p.1 = p.2
      · by_cases hp : p.2 = c <;> simp [h, hp]
      · by_cases hp : p.2 = c
        · have hx : ¬p.1 = c := fun hx => h (hx.trans hp.symm)
          simp [h, hp, hx]
        · simp [h, hp]
    rw [List.countP_cons, List.countP_cons, List.countP_cons, ← ih]
    omega

theorem countP_match_fst_snd (c : Char) (l : List (Char × Char)) :
    (l.countP fun p => decide (p.1 = p.2) && decide (p.1 = c)) =
      l.countP fun p => decide (p.1 = p.2) && decide (p.2 = c) := by
  refine List.countP_congr ?_
  intro p _
  by_cases h : p.1 = p.2 <;> simp [h]

/-- Claim C1: for every pair of equal-length character strings, `score_guess`
returns a marker list of the common input length, the number of `'G'` markers
equals the number of positions where guess and target agree, and for every
letter `c` the number of positions carrying a non-`'B'` marker whose guessed
letter is `c` never exceeds the number of occurrences of `c` in the target. -/
theorem score_guess_correct (gs ts : List Char) (h : gs.length = ts.length) :
    (score_guess gs ts).length = ts.length ∧
    (score_guess gs ts).count 'G' =
      (gs.zip ts).countP (fun p => decide (p.1 = p.2)) ∧
    ∀ c : Char,
      ((gs.zip (score_guess gs ts)).countP
          fun p => decide (p.1 = c) && !decide (p.2 = 'B')) ≤ ts.count c := by
  have hms_len : (scorePass1 gs ts).1.length = gs.length := by
    rw [scorePass1_fst_length, h, Nat.min_self]
  unfold score_guess
  refine ⟨?_, ?_, ?_⟩
  · rw [scorePass2_length, hms_len, Nat.min_self, h]
  · rw [scorePass2_countG gs _ _ hms_len.symm, scorePass1_countG]
  · intro c
    have hGYB : ∀ p ∈ gs.zip
        (scorePass2 gs (scorePass1 gs ts).1 (scorePass1 gs ts).2),
        p.2 = 'G' ∨ p.2 = 'Y' ∨ p.2 = 'B' := by
      intro p hp
      exact scorePass2_GYB gs _ _ (scorePass1_markers_GB gs ts) p.2
        (List.of_mem_zip hp).2
    rw [countP_nonB_split c _ hGYB]
    rw [scorePass2_green_zip, scorePass1_green_zip]
    have hy := scorePass2_yellow_le c gs (scorePass1 gs ts).1 (scorePass1 gs ts).2
      (scorePass1_markers_GB gs ts)
    refine le_trans (Nat.add_le_add_left hy _) ?_
    rw [scorePass1_rem_count, countP_match_fst_snd, countP_match_snd_split]
    exact zip_snd_countP_le c gs ts

/-- Witness for claim C1 at the spec's concrete pair `("aabbb", "ababa")`. -/
theorem score_guess_correct_witness :
    ("aabbb".data.length = "ababa".data.length) ∧
    ((score_guess "aabbb".data "ababa".data).length = "ababa".data.length ∧
      (score_guess "aabbb".data "ababa".data).count 'G' =
        ("aabbb".data.zip "ababa".data).countP (fun p => decide (p.1 = p.2)) ∧
      ∀ c : Char,
        (("aabbb".data.zip (score_guess "aabbb".data "ababa".data)).countP
            fun p => decide (p.1 = c) && !decide (p.2 = 'B')) ≤
          "ababa".data.count c) :=
  ⟨rfl, score_guess_correct "aabbb".data "ababa".data rfl⟩

/-! ### Claim C5: filter pipeline idempotence -/

theorem applyLoop_sublist (lowerFn : String → String) (alphaFn : String → Bool)
    (profFn : String → Bool) (c : FilterConfig) (l : List String) :
    ∀ seen, List.Sublist (applyLoop lowerFn alphaFn profFn c seen l) l := by
  induction l with
  | nil => intro seen; exact List.Sublist.refl []
  | cons w l ih =>
    intro seen
    rw [applyLoop]
    split
    · exact List.Sublist.cons₂ w (ih _)
    · exact List.Sublist.cons w (ih seen)

theorem applyLoop_passes (lowerFn : String → String) (alphaFn : String → Bool)
    (profFn : String → Bool) (c : FilterConfig) (l : List String) :
    ∀ seen w, w ∈ applyLoop lowerFn alphaFn profFn c seen l →
      passesFilter lowerFn alphaFn profFn c w = true := by
  induction l with
  | nil => intro seen w hw; exact absurd hw (List.not_mem_nil w)
  | cons x l ih =>
    intro seen w hw
    rw [applyLoop] at hw
    split at hw
    · rename_i hcond
      rcases List.mem_cons.mp hw with rfl | hw
      · exact hcond.1
      · exact ih _ w hw
    · exact ih seen w hw

theorem applyLoop_lower_not_seen (lowerFn : String → String)
    (alphaFn : String → Bool) (profFn : String → Bool) (c : FilterConfig)
    (l : List String) :
    ∀ seen w, w ∈ applyLoop lowerFn alphaFn profFn c seen l →
      lowerFn w ∉ seen := by
  induction l with
  | nil => intro seen w hw; exact absurd hw (List.not_mem_nil w)
  | cons x l ih =>
    intro seen w hw
    rw [applyLoop] at hw
    split at hw
    · rename_i hcond
      rcases List.mem_cons.mp hw with rfl | hw
      · exact hcond.2
      · intro hmem
        exact ih _ w hw (List.mem_cons_of_mem _ hmem)
    · exact ih seen w hw

theorem applyLoop_pairwise (lowerFn : String → String) (alphaFn : String → Bool)
    (profFn : String → Bool) (c : FilterConfig) (l : List String) :
    ∀ seen, List.Pairwise (fun a b => lowerFn a ≠ lowerFn b)
      (applyLoop lowerFn alphaFn profFn c seen l) := by
  induction l with
  | nil => intro seen; exact List.Pairwise.nil
  | cons x l ih =>
    intro seen
    rw [applyLoop]
    split
    · refine List.Pairwise.cons ?_ (ih _)
      intro y hy hxy
      exact applyLoop_lower_not_seen lowerFn alphaFn profFn c l _ y hy
        (hxy ▸ List.mem_cons_self _ _)
    · exact ih seen

theorem applyLoop_eq_self (lowerFn : String → String) (alphaFn : String → Bool)
    (profFn : String → Bool) (c : FilterConfig) (l : List String) :
    ∀ seen, List.Pairwise (fun a b => lowerFn a ≠ lowerFn b) l →
      (∀ w ∈ l, passesFilter lowerFn alphaFn profFn c w = true) →
      (∀ w ∈ l, lowerFn w ∉ seen) →
      applyLoop lowerFn alphaFn profFn c seen l = l := by
  induction l with
  | nil => intro seen _ _ _; rfl
  | cons x l ih =>
    intro seen hpw hpass hseen
    rw [applyLoop, if_pos ⟨hpass x (List.mem_cons_self x l),
      hseen x (List.mem_cons_self x l)⟩]
    congr 1
    refine ih (lowerFn x :: seen) hpw.of_cons
      (fun w hw => hpass w (List.mem_cons_of_mem x hw)) ?_
    intro w hw
    simp only [List.mem_cons, not_or]
    refine ⟨?_, hseen w (List.mem_cons_of_mem x hw)⟩
    exact Ne.symm ((List.pairwise_cons.mp hpw).1 w hw)

theorem filterApply_sorted (lowerFn : String → String) (alphaFn : String → Bool)
    (profFn : String → Bool) (c : FilterConfig) (cat : Finset String)
    (words : List String) :
    List.Sorted wordLe (filterApply lowerFn alphaFn profFn c cat words) :=
  List.sorted_insertionSort wordLe _

theorem filterApply_mem {lowerFn : String → String} {alphaFn : String → Bool}
    {profFn : String → Bool} {c : FilterConfig} {cat : Finset String}
    {words : List String} {w : String} :
    w ∈ filterApply lowerFn alphaFn profFn c cat words ↔
      w ∈ applyLoop lowerFn alphaFn profFn c [] words :=
  List.mem_insertionSort wordLe

theorem filterApply_pairwise (lowerFn : String → String)
    (alphaFn : String → Bool) (profFn : String → Bool) (c : FilterConfig)
    (cat : Finset String) (words : List String) :
    List.Pairwise (fun a b => lowerFn a ≠ lowerFn b)
      (filterApply lowerFn alphaFn profFn c cat words) := by
  have hperm := List.perm_insertionSort wordLe
    (applyLoop lowerFn alphaFn profFn c [] words)
  refine (hperm.pairwise_iff ?_).mpr (applyLoop_pairwise lowerFn alphaFn profFn c words [])
  intro a b hab
  exact hab.symm

theorem filterApply_subset {lowerFn : String → String} {alphaFn : String → Bool}
    {profFn : String → Bool} {c : FilterConfig} {cat : Finset String}
    {words : List String} {w : String}
    (hw : w ∈ filterApply lowerFn alphaFn profFn c cat words) : w ∈ words :=
  (applyLoop_sublist lowerFn alphaFn profFn c words []).mem
    (filterApply_mem.mp hw)

theorem filterApply_passes {lowerFn : String → String} {alphaFn : String → Bool}
    {profFn : String → Bool} {c : FilterConfig} {cat : Finset String}
    {words : List String} {w : String}
    (hw : w ∈ filterApply lowerFn alphaFn profFn c cat words) :
    passesFilter lowerFn alphaFn profFn c w = true :=
  applyLoop_passes lowerFn alphaFn profFn c words [] w (filterApply_mem.mp hw)

theorem filterApply_eq_self {lowerFn : String → String} {alphaFn : String → Bool}
    {profFn : String → Bool} {c : FilterConfig} {cat : Finset String}
    {l : List String} (hs : List.Sorted wordLe l)
    (hp : List.Pairwise (fun a b => lowerFn a ≠ lowerFn b) l)
    (hpass : ∀ w ∈ l, passesFilter lowerFn alphaFn profFn c w = true) :
    filterApply lowerFn alphaFn profFn c cat l = l := by
  rw [filterApply, applyLoop_eq_self lowerFn alphaFn profFn c l [] hp hpass
    (by simp)]
  exact hs.insertionSort_eq

theorem pairwise_lower_nodup {lowerFn : String → String} {l : List String}
    (hp : List.Pairwise (fun a b => lowerFn a ≠ lowerFn b) l) : l.Nodup :=
  List.Pairwise.imp (fun hab heq => hab (by rw [heq])) hp

theorem filter_candidates_false_eval (lowerFn : String → String)
    (alphaFn : String → Bool) (profFn : String → Bool)
    (cfgFn : String → FilterConfig) (words : List String) (lang : String)
    (catalog : Finset String) :
    filter_candidates lowerFn alphaFn profFn cfgFn words lang catalog false =
      pySortedDedup words := rfl

theorem filter_candidates_true_eval (lowerFn : String → String)
    (alphaFn : String → Bool) (profFn : String → Bool)
    (cfgFn : String → FilterConfig) (words : List String) (lang : String)
    (catalog : Finset String) :
    filter_candidates lowerFn alphaFn profFn cfgFn words lang catalog true =
      (match languageArchetype lowerFn lang with
      | none =>
        if pySortedDedup words ≠ [] then
          filterApply lowerFn alphaFn profFn (cfgFn "global") catalog
            (pySortedDedup words)
        else pySortedDedup words
      | some a =>
        filterApply lowerFn alphaFn profFn (cfgFn a) catalog
          (if pySortedDedup words ≠ [] then
            filterApply lowerFn alphaFn profFn (cfgFn "global") catalog
              (pySortedDedup words)
          else pySortedDedup words)) := rfl

theorem filter_true_props (lowerFn : String → String) (alphaFn : String → Bool)
    (profFn : String → Bool) (cfgFn : String → FilterConfig)
    (ws : List String) (lang : String) (catalog : Finset String) :
    List.Sorted wordLe
        (filter_candidates lowerFn alphaFn profFn cfgFn ws lang catalog true) ∧
    List.Pairwise (fun a b => lowerFn a ≠ lowerFn b)
        (filter_candidates lowerFn alphaFn profFn cfgFn ws lang catalog true) ∧
    (∀ w ∈ filter_candidates lowerFn alphaFn profFn cfgFn ws lang catalog true,
        passesFilter lowerFn alphaFn profFn (cfgFn "global") w = true) ∧
    (∀ a, languageArchetype lowerFn lang = some a →
      ∀ w ∈ filter_candidates lowerFn alphaFn profFn cfgFn ws lang catalog true,
        passesFilter lowerFn alphaFn profFn (cfgFn a) w = true) := by
  rw [filter_candidates_true_eval]
  cases harch : languageArchetype lowerFn lang with
  | none =>
    dsimp only
    by_cases hF0 : pySortedDedup ws = []
    · rw [if_neg (by simp [hF0]), hF0]
      exact ⟨List.sorted_nil, List.Pairwise.nil, by simp, by simp⟩
    · rw [if_pos hF0]
      refine ⟨filterApply_sorted _ _ _ _ _ _, filterApply_pairwise _ _ _ _ _ _,
        ?_, ?_⟩
      · intro w hw; exact filterApply_passes hw
      · intro a ha; exact Option.noConfusion ha
  | some a0 =>
    dsimp only
    refine ⟨filterApply_sorted _ _ _ _ _ _, filterApply_pairwise _ _ _ _ _ _,
      ?_, ?_⟩
    · intro w hw
      have hw1 := filterApply_subset hw
      by_cases hF0 : pySortedDedup ws = []
      · rw [if_neg (by simp [hF0]), hF0] at hw1
        exact absurd hw1 (List.not_mem_nil w)
      · rw [if_pos hF0] at hw1
        exact filterApply_passes hw1
    · intro a ha w hw
      obtain rfl : a0 = a := Option.some.inj ha
      exact filterApply_passes hw

/-- Claim C5: `filter_candidates` is idempotent: applying it to its own output,
with the same language, catalog, configuration and enable flag, returns the
output unchanged. -/
theorem filter_candidates_idempotent (lowerFn : String → String)
    (alphaFn : String → Bool) (profFn : String → Bool)
    (cfgFn : String → FilterConfig) (ws : List String) (lang : String)
    (catalog : Finset String) (e : Bool) :
    filter_candidates lowerFn alphaFn profFn cfgFn
        (filter_candidates lowerFn alphaFn profFn cfgFn ws lang catalog e)
        lang catalog e =
      filter_candidates lowerFn alphaFn profFn cfgFn ws lang catalog e := by
  cases e with
  | false =>
    rw [filter_candidates_false_eval, filter_candidates_false_eval]
    exact pySortedDedup_eq_self (sorted_pySortedDedup _) (nodup_pySortedDedup _)
  | true =>
    obtain ⟨hsorted, hpair, hglob, harchp⟩ :=
      filter_true_props lowerFn alphaFn profFn cfgFn ws lang catalog
    set R := filter_candidates lowerFn alphaFn profFn cfgFn ws lang catalog true
      with hR
    have hded : pySortedDedup R = R :=
      pySortedDedup_eq_self hsorted (pairwise_lower_nodup hpair)
    rw [filter_candidates_true_eval, hded]
    have hF1 : (if R ≠ [] then
        filterApply lowerFn alphaFn profFn (cfgFn "global") catalog R
      else R) = R := by
      by_cases hRnil : R = []
      · rw [if_neg (by simp [hRnil])]
      · rw [if_pos hRnil]
        exact filterApply_eq_self hsorted hpair hglob
    cases harch : languageArchetype lowerFn lang with
    | none =>
      dsimp only
      exact hF1
    | some a =>
      dsimp only
      rw [hF1]
      exact filterApply_eq_self hsorted hpair (harchp a harch)
